import Mathlib

/-!
Verification of the BIOS-settings extraction/comparison engine of `vios.py`
(class `Bios`: `parse_xml_tree`, `get_bios_data`, `compare_settings`).

Modelling conventions:
* Python dicts are insertion-ordered association lists; `dictInsert` follows
  Python item assignment (replace in place if the key exists, else append).
* A leaf setting value is `Option String`: `some s` for a Python string,
  `none` for Python `None` (the "unknown" marker written by the XML parser).
* Exceptions that escape a function (`KeyError`, `IndexError`,
  `AttributeError`, and `sm.error` followed by `exit()`) are modelled with
  `Except`; `sm.error` *without* `exit()` is a non-fatal warning, collected
  in a `List String` result component.
* `compare_settings` in the source is one recursive function over arbitrary
  nested dicts; a SettingsTree is exactly two levels deep (menu path ->
  settings map -> leaf), so the embedding specializes the recursion to that
  shape: `compare_settings` handles the top level (values are dicts, so the
  `type(...) is dict` test is true and the code recurses with `path = key`)
  and `compareLeafLoop` handles the inner level (values are leaves).
-/

/-- Mirror of the `Baseboard` enum in `vios.py`. -/
inductive Baseboard where
  | INTEL
  | SUPERMICRO
  | OTHER
deriving DecidableEq

/-- Python exceptions that can escape the parsing functions. -/
inductive PyErr where
  | keyError
  | indexError
  | attributeError
  | xmlParseError
deriving DecidableEq

/-- A settings map: setting name -> value (`none` models Python `None`). -/
abbrev Settings := List (String × Option String)

/-- A settings tree: menu path -> settings map. -/
abbrev SettingsTree := List (String × Settings)

/-- One reported difference between the current and template trees.  The
source accumulates these as formatted text blocks appended to `diff`; the
embedding records the data of each block. -/
structure DiffEntry where
  path : String
  key : String
  current : String
  template : String
deriving DecidableEq

/-- Failures of `compare_settings`: the `sm.error` + `exit()` on a length
mismatch (the spec's `StructuralMismatchError`), and the `TypeError` Python
would raise when concatenating a `None` leaf into the diff string. -/
inductive CompareError where
  | structuralMismatch
  | typeError
deriving DecidableEq

instance exceptDecEq {ε α : Type} [DecidableEq ε] [DecidableEq α] :
    DecidableEq (Except ε α) := fun x y =>
  match x, y with
  | .ok a, .ok b =>
    if h : a = b then .isTrue (by rw [h]) else .isFalse (fun hc => h (Except.ok.inj hc))
  | .error a, .error b =>
    if h : a = b then .isTrue (by rw [h]) else .isFalse (fun hc => h (Except.error.inj hc))
  | .ok _, .error _ => .isFalse (fun hc => Except.noConfusion hc)
  | .error _, .ok _ => .isFalse (fun hc => Except.noConfusion hc)

/-- Python dict item assignment `d[k] = v` on an association list: replace
the value in place if the key is present, else append a new entry. -/
def dictInsert {α : Type} (m : List (String × α)) (k : String) (v : α) :
    List (String × α) :=
  if (List.lookup k m).isSome then
    m.map (fun p => if p.1 = k then (k, v) else p)
  else
    m ++ [(k, v)]

/-- Inner loop of `compare_settings` (vios.py lines 557-568) over the keys of
a matched menu's settings map, where both values are leaves: a key of
`cb` missing from `gt` yields a non-fatal warning; differing leaf values
yield one diff entry, built by string concatenation (which raises `TypeError`
if a leaf is `None`). -/
def compareLeafLoop (cb gt : Settings) (path : String) :
    List String → Except CompareError (List DiffEntry × List String)
  | [] => .ok ([], [])
  | k :: rest =>
    match List.lookup k gt with
    | none =>
      match compareLeafLoop cb gt path rest with
      | .error e => .error e
      | .ok (ds, ws) => .ok (ds, k :: ws)
    | some v2 =>
      match List.lookup k cb with
      | none => compareLeafLoop cb gt path rest
      | some v1 =>
        if v1 = v2 then
          compareLeafLoop cb gt path rest
        else
          match v1, v2 with
          | some s1, some s2 =>
            match compareLeafLoop cb gt path rest with
            | .error e => .error e
            | .ok (ds, ws) => .ok (⟨path, k, s1, s2⟩ :: ds, ws)
          | _, _ => .error .typeError

/-- `compare_settings` applied to one matched menu's settings maps (the
recursive call at vios.py line 563): the `len` check applies here too. -/
def compareLeafMaps (cb gt : Settings) (path : String) :
    Except CompareError (List DiffEntry × List String) :=
  if cb.length ≠ gt.length then .error .structuralMismatch
  else compareLeafLoop cb gt path (cb.map Prod.fst)

/-- Top-level loop of `compare_settings` over the menu paths of `cb`: a menu
missing from `gt` yields a non-fatal warning; a matched menu (its value is a
dict) is compared recursively with `path = key`. -/
def compareMenuLoop (cb gt : SettingsTree) :
    List String → Except CompareError (List DiffEntry × List String)
  | [] => .ok ([], [])
  | k :: rest =>
    match List.lookup k gt with
    | none =>
      match compareMenuLoop cb gt rest with
      | .error e => .error e
      | .ok (ds, ws) => .ok (ds, k :: ws)
    | some s2 =>
      match List.lookup k cb with
      | none => compareMenuLoop cb gt rest
      | some s1 =>
        match compareLeafMaps s1 s2 k with
        | .error e => .error e
        | .ok (d1, w1) =>
          match compareMenuLoop cb gt rest with
          | .error e => .error e
          | .ok (ds, ws) => .ok (d1 ++ ds, w1 ++ ws)

/-- `Bios.compare_settings(cb_data, gt_data)` (vios.py lines 539-570) on two
settings trees: fatal length check, then the key loop.  `.ok (diffs, warns)`
models a normal return of the accumulated diff plus the non-fatal warnings
printed along the way. -/
def compare_settings (cb gt : SettingsTree) :
    Except CompareError (List DiffEntry × List String) :=
  if cb.length ≠ gt.length then .error .structuralMismatch
  else compareMenuLoop cb gt (cb.map Prod.fst)

/-- Python `\s` on a byte string: space, tab, newline, carriage return,
vertical tab, form feed. -/
def isPySpace (c : Char) : Bool :=
  c = ' ' || c = '\t' || c = '\n' || c = '\r' || c = '\x0b' || c = '\x0c'

mutual

/-- `re.sub('\s\s+', '', value)`: scanning left to right, every maximal run
of two or more whitespace characters is deleted outright (replaced by the
empty string); an isolated single whitespace character is kept. -/
def collapseRuns : List Char → List Char
  | [] => []
  | [c] => [c]
  | c :: d :: rest =>
    if isPySpace c then
      if isPySpace d then collapseSkip rest
      else c :: collapseRuns (d :: rest)
    else c :: collapseRuns (d :: rest)

/-- Helper of `collapseRuns`: two whitespace characters have just been
consumed, so discard the remainder of the current whitespace run and resume
scanning at the first non-whitespace character. -/
def collapseSkip : List Char → List Char
  | [] => []
  | c :: rest => if isPySpace c then collapseSkip rest else c :: collapseRuns rest

end

mutual

/-- `re.sub('(#.*)', '', data)`: delete from each `#` to the end of its line
(the newline itself survives). -/
def stripHash : List Char → List Char
  | [] => []
  | c :: rest => if c = '#' then stripHashSkip rest else c :: stripHash rest

/-- Helper of `stripHash`: discard characters until the end of the line. -/
def stripHashSkip : List Char → List Char
  | [] => []
  | c :: rest => if c = '\n' then c :: stripHash rest else stripHashSkip rest

end

mutual

/-- `re.sub('(//.*)', '', data)`: delete from each `//` to the end of its
line (the newline itself survives). -/
def stripSlash : List Char → List Char
  | [] => []
  | '/' :: '/' :: rest => stripSlashSkip rest
  | c :: rest => c :: stripSlash rest

/-- Helper of `stripSlash`: discard characters until the end of the line. -/
def stripSlashSkip : List Char → List Char
  | [] => []
  | c :: rest => if c = '\n' then c :: stripSlash rest else stripSlashSkip rest

end

mutual

/-- `re.sub('(;.*)', '', data)`: delete from each `;` to the end of its line
(the newline itself survives). -/
def stripSemi : List Char → List Char
  | [] => []
  | c :: rest => if c = ';' then stripSemiSkip rest else c :: stripSemi rest

/-- Helper of `stripSemi`: discard characters until the end of the line. -/
def stripSemiSkip : List Char → List Char
  | [] => []
  | c :: rest => if c = '\n' then c :: stripSemi rest else stripSemiSkip rest

end

/-- The dialect-dependent comment stripping of `get_bios_data` (vios.py
lines 514-518): Supermicro strips `#...` then `//...`; Intel strips `;...`;
any other board is left untouched. -/
def stripComments (board : Baseboard) (cs : List Char) : List Char :=
  match board with
  | .SUPERMICRO => stripSlash (stripHash cs)
  | .INTEL => stripSemi cs
  | .OTHER => cs

/-- `re.split(r"\n\n", data)`: split on each non-overlapping, leftmost
occurrence of two consecutive newlines. -/
def blocksOf : List Char → List (List Char)
  | [] => [[]]
  | [c] => [[c]]
  | c :: d :: rest =>
    if c = '\n' && d = '\n' then [] :: blocksOf rest
    else
      match blocksOf (d :: rest) with
      | [] => [[c]]
      | b :: bs => (c :: b) :: bs

/-- Split a block into its lines (like Python `str.split('\n')`): used to
model `re.findall('(.*)=(.*)', menu)`, whose matches never span a newline. -/
def linesOf : List Char → List (List Char)
  | [] => [[]]
  | c :: rest =>
    if c = '\n' then [] :: linesOf rest
    else
      match linesOf rest with
      | [] => [[c]]
      | l :: ls => (c :: l) :: ls

/-- The prefix of `l` strictly before the last occurrence of `t`
(the greedy group of a `x(.*)t` regex match). -/
def beforeLast (t : Char) (l : List Char) : List Char :=
  ((l.reverse.dropWhile (fun d => d ≠ t)).drop 1).reverse

/-- `re.search('\[(.*)\]', menu)`: scan for the first `[` that has a `]`
later on the same line; the greedy group runs to the *last* `]` of that
line.  Returns `none` when no line contains such a bracketed token
(Python: `AttributeError` on `.group(1)`). -/
def searchBracket : List Char → Option (List Char)
  | [] => none
  | c :: rest =>
    if c = '[' then
      let line := rest.takeWhile (fun d => d ≠ '\n')
      if line.contains ']' then some (beforeLast ']' line)
      else searchBracket rest
    else searchBracket rest

/-- One line's contribution to `re.findall('(.*)=(.*)', menu)`: a line
containing `=` yields exactly one match whose greedy first group runs to the
last `=` of the line; a line without `=` yields nothing. -/
def lineSetting (line : List Char) : Option (List Char × List Char) :=
  if line.contains '=' then
    some (beforeLast '=' line, (line.reverse.takeWhile (fun c => c ≠ '=')).reverse)
  else none

/-- `re.findall('(.*)=(.*)', menu)` over a whole block: one (name, value)
pair per `=`-carrying line, in line order. -/
def settingsOfBlock (block : List Char) : List (List Char × List Char) :=
  (linesOf block).filterMap lineSetting

/-- The inner `for setting in setting_list` loop of `get_bios_data` (vios.py
lines 534-535): each pair is written into `bios_data[menu_name]`, with the
whitespace-run collapse applied to the value only.  When `menu_name` is not
a key of `bios_data` (headerless block), Python raises an uncaught
`KeyError`. -/
def settingsLoop (bd : SettingsTree) (menuName : String) :
    List (List Char × List Char) → Except PyErr SettingsTree
  | [] => .ok bd
  | (k, v) :: rest =>
    match List.lookup menuName bd with
    | none => .error .keyError
    | some m =>
      settingsLoop
        (dictInsert bd menuName
          (dictInsert m (String.mk k) (some (String.mk (collapseRuns v)))))
        menuName rest

/-- The `for menu in menu_list` loop of `get_bios_data` (vios.py lines
521-535): extract the bracketed menu name (a failed search on a non-empty
block is a non-fatal warning, recorded here as the block's text); a truthy
menu name resets `bios_data[menu_name]` to an empty dict; then every
`key=value` line of the block is stored. -/
def processBlocks : List (List Char) → SettingsTree → List String →
    Except PyErr (SettingsTree × List String)
  | [], bd, ws => .ok (bd, ws)
  | menu :: rest, bd, ws =>
    let found := searchBracket menu
    let ws' := if found.isNone && !menu.isEmpty then ws ++ [String.mk menu] else ws
    let menuName := (found.map String.mk).getD ""
    let bd1 := if menuName ≠ "" then dictInsert bd menuName [] else bd
    match settingsLoop bd1 menuName (settingsOfBlock menu) with
    | .error e => .error e
    | .ok bd2 => processBlocks rest bd2 ws'

/-- The plain-text branch of `get_bios_data` (vios.py lines 513-537):
comment stripping per board, blank-line split, then the per-block loop. -/
def get_bios_data_plain (board : Baseboard) (content : String) :
    Except PyErr (SettingsTree × List String) :=
  processBlocks (blocksOf (stripComments board content.toList)) [] []

/-- Whether `re.search('<?xml version.*>', data)` matches starting exactly
here: the `<?` makes the leading `<` optional, so the pattern is simply an
occurrence of `"xml version"` with a `>` later on the same line. -/
def xmlDeclFrom (cs : List Char) : Bool :=
  List.isPrefixOf ("xml version".toList) cs &&
    ((cs.drop 11).takeWhile (fun c => c ≠ '\n')).contains '>'

/-- Search `xmlDeclFrom` at every position of the content. -/
def hasXmlDeclGo : List Char → Bool
  | [] => false
  | c :: rest => xmlDeclFrom (c :: rest) || hasXmlDeclGo rest

/-- The dialect test of `get_bios_data` (vios.py line 498):
`re.search('<?xml version.*>', file_data)`. -/
def hasXmlDecl (content : String) : Bool :=
  hasXmlDeclGo content.toList

/-- An XML element as exposed by `xml.etree.ElementTree`: tag, attribute
dict, child elements, and text. -/
inductive XmlElem where
  | mk : String → List (String × String) → List XmlElem → Option String → XmlElem

def XmlElem.tag : XmlElem → String
  | .mk t _ _ _ => t

def XmlElem.attrib : XmlElem → List (String × String)
  | .mk _ a _ _ => a

def XmlElem.children : XmlElem → List XmlElem
  | .mk _ _ c _ => c

def XmlElem.text : XmlElem → Option String
  | .mk _ _ _ x => x

/-- `element.find(tag)`: the first direct child with the given tag, or
`None`. -/
def XmlElem.findChild (e : XmlElem) (t : String) : Option XmlElem :=
  e.children.find? (fun c => c.tag == t)

/-- The `Setting` branch of `parse_xml_tree` (vios.py lines 438-458),
mirroring the nested `try/except KeyError` ladder.  An assignment
`settings[attrib['name']] = attrib[X]` succeeds only when both lookups do;
a `KeyError` from either falls through to the next rung.  On the last rung:
* a missing `type` attribute raises `KeyError`, is caught, but the handler's
  warning message itself evaluates `element.attrib['type']` again, so the
  `KeyError` escapes uncaught — the parse aborts, the warning never prints;
* `type == 'Password'` reads `element[0].find('HasPassword').text`
  (`IndexError` if no children, `AttributeError` if the find returns
  `None`); `type == 'String'` reads `element.find('StringValue').text`
  (`AttributeError` if absent); a missing `name` on these assignments leads
  to the handler's `settings[attrib['name']]` re-raising `KeyError`;
* any other `type` value silently completes the `try` with no assignment:
  the setting is dropped without a marker or warning. -/
def settingStep (settings : Settings) (e : XmlElem) : Except PyErr Settings :=
  let name? := List.lookup "name" e.attrib
  match List.lookup "selectedOption" e.attrib, name? with
  | some v, some n => .ok (dictInsert settings n (some v))
  | _, _ =>
    match List.lookup "checkedStatus" e.attrib, name? with
    | some v, some n => .ok (dictInsert settings n (some v))
    | _, _ =>
      match List.lookup "settingValue" e.attrib, name? with
      | some v, some n => .ok (dictInsert settings n (some v))
      | _, _ =>
        match List.lookup "type" e.attrib with
        | none => .error .keyError
        | some ty =>
          if ty = "Password" then
            match e.children with
            | [] => .error .indexError
            | c0 :: _ =>
              match c0.findChild "HasPassword" with
              | none => .error .attributeError
              | some hp =>
                match name? with
                | some n => .ok (dictInsert settings n hp.text)
                | none => .error .keyError
          else if ty = "String" then
            match e.findChild "StringValue" with
            | none => .error .attributeError
            | some sv =>
              match name? with
              | some n => .ok (dictInsert settings n sv.text)
              | none => .error .keyError
          else .ok settings

/-- The element loop of `parse_xml_tree` (vios.py lines 437-461): `Setting`
elements feed the local `settings` dict; `Menu` elements recurse with the
extended `path + '|' + name`, the recursive call's trailing
"attach if non-empty" step (lines 463-464) inlined at the call site. -/
def xmlLoop : String → List XmlElem → Settings → SettingsTree →
    Except PyErr (Settings × SettingsTree)
  | _, [], s, bd => .ok (s, bd)
  | path, e :: rest, s, bd =>
    match (if e.tag = "Setting" then settingStep s e else .ok s) with
    | .error err => .error err
    | .ok s2 =>
      if e.tag = "Menu" then
        match List.lookup "name" e.attrib with
        | none => .error .keyError
        | some n =>
          match xmlLoop (path ++ "|" ++ n) e.children [] bd with
          | .error err => .error err
          | .ok (subS, subBd) =>
            xmlLoop path rest s2
              (if subS = [] then subBd
               else dictInsert subBd (path ++ "|" ++ n) subS)
      else xmlLoop path rest s2 bd
termination_by _ es _ _ => sizeOf es
decreasing_by
  all_goals simp_wf
  all_goals cases e
  all_goals simp [XmlElem.children]
  all_goals omega

/-- `Bios.parse_xml_tree(bios_data, path, tree)` (vios.py lines 417-466):
walk the element list, then attach the collected settings dict under `path`
if it is non-empty. -/
def parse_xml_tree (bios_data : SettingsTree) (path : String)
    (tree : List XmlElem) : Except PyErr SettingsTree :=
  match xmlLoop path tree [] bios_data with
  | .error err => .error err
  | .ok (settings, bd) =>
    .ok (if settings = [] then bd else dictInsert bd path settings)

/-- The top-level XML loop of `get_bios_data` (vios.py lines 508-510): every
root child tagged `Menu` whose `name` attribute is not `'Main'` is walked
(a `Menu` without a `name` raises an uncaught `KeyError`). -/
def xmlTopLoop : List XmlElem → SettingsTree → Except PyErr SettingsTree
  | [], bd => .ok bd
  | e :: rest, bd =>
    if e.tag = "Menu" then
      match List.lookup "name" e.attrib with
      | none => .error .keyError
      | some n =>
        if n ≠ "Main" then
          match parse_xml_tree bd n e.children with
          | .error err => .error err
          | .ok bd2 => xmlTopLoop rest bd2
        else xmlTopLoop rest bd
    else xmlTopLoop rest bd

/-- The XML branch of `get_bios_data` applied to an already-parsed document
root. -/
def get_bios_data_xml (root : XmlElem) : Except PyErr SettingsTree :=
  xmlTopLoop root.children []

/-- `Bios.get_bios_data` (vios.py lines 468-537) on in-memory file content.
The external collaborators are abstracted: `xmlFromString` stands for
`xml.etree` (`ET.fromstring`, fed the content with `<!--...-->` comments and
a leading blank line scrubbed; `none` models `ET.ParseError`, on which the
code calls `sm.error` and exits).  If the content does not match the XML
declaration pattern it is always handled as plain text — there is no
further dialect validation. -/
def get_bios_data (xmlFromString : String → Option XmlElem) (board : Baseboard)
    (content : String) : Except PyErr (SettingsTree × List String) :=
  if hasXmlDecl content then
    match xmlFromString content with
    | none => .error .xmlParseError
    | some root =>
      match get_bios_data_xml root with
      | .error e => .error e
      | .ok bd => .ok (bd, [])
  else get_bios_data_plain board content

/-- Whether a character list contains two consecutive newlines (the
separator pattern of `re.split(r"\n\n", ...)`). -/
def noDoubleNlB : List Char → Bool
  | [] => true
  | [_] => true
  | c :: d :: rest => !(c = '\n' && d = '\n') && noDoubleNlB (d :: rest)

/-- Join chunks with a separator (used only to *construct* valid plain-text
inputs for the universally-quantified parser claims). -/
def joinWith (sep : List Char) : List (List Char) → List Char
  | [] => []
  | [b] => b
  | b :: b2 :: rest => b ++ sep ++ joinWith sep (b2 :: rest)

/-- One bracketed section of a valid plain-text configuration file: a menu
name and its raw `key=value` lines. -/
structure PlainSection where
  name : List Char
  settings : List (List Char × List Char)
deriving DecidableEq

/-- Render one section: `[name]` header line, then one `key=value` line per
setting. -/
def renderSection (s : PlainSection) : List Char :=
  '[' :: (s.name ++ ']' :: '\n' :: joinWith ['\n'] (s.settings.map (fun kv => kv.1 ++ '=' :: kv.2)))

/-- Render a whole plain-text file: sections separated by one blank line. -/
def renderSections (ss : List PlainSection) : List Char :=
  joinWith ['\n', '\n'] (ss.map renderSection)

/-- Well-formedness of a section of a valid plain-text input: a non-empty
menu name free of structural characters, and at least one setting whose key
and value are newline-free (values additionally `=`-free so the line parses
back to the same pair; `#`, `/`, `;` excluded everywhere so that no comment
stripping applies on any board). -/
def wfSection (s : PlainSection) : Prop :=
  s.name ≠ [] ∧
  (∀ c ∈ s.name, c ≠ '\n' ∧ c ≠ '[' ∧ c ≠ ']' ∧ c ≠ '=' ∧ c ≠ '#' ∧ c ≠ '/' ∧ c ≠ ';') ∧
  s.settings ≠ [] ∧
  (∀ kv ∈ s.settings,
    (∀ c ∈ kv.1, c ≠ '\n' ∧ c ≠ '#' ∧ c ≠ '/' ∧ c ≠ ';') ∧
    (∀ c ∈ kv.2, c ≠ '\n' ∧ c ≠ '=' ∧ c ≠ '#' ∧ c ≠ '/' ∧ c ≠ ';'))

instance wfSectionDecidable (s : PlainSection) : Decidable (wfSection s) := by
  unfold wfSection
  infer_instance

/-- One step of the settings accumulation of the plain-text parser: insert
the pair, with the whitespace collapse applied to the value. -/
def innerStep (acc : Settings) (kv : List Char × List Char) : Settings :=
  dictInsert acc (String.mk kv.1) (some (String.mk (collapseRuns kv.2)))

/-- The settings map the plain-text parser builds for one block: each
`key=value` line inserted in order, the whitespace collapse applied to the
value. -/
def sectionSettings (s : PlainSection) : Settings :=
  s.settings.foldl innerStep []

/-- Effect of parsing one block on the accumulated tree: reset the menu's
entry, then store the block's settings. -/
def sectionStep (bd : SettingsTree) (s : PlainSection) : SettingsTree :=
  dictInsert bd (String.mk s.name) (sectionSettings s)

/-- The tree the plain-text parser returns for a rendered section list. -/
def treeOf (ss : List PlainSection) : SettingsTree :=
  ss.foldl sectionStep []

/-- C3 failing input: a `Setting` element whose value resolves by no known
lookup and which carries no `type` attribute at all. -/
def c3SettingNoType : XmlElem := .mk "Setting" [("name", "Foo")] [] none

def c3MenuA : XmlElem := .mk "Menu" [("name", "A")] [c3SettingNoType] none

def c3Root : XmlElem := .mk "BiosCfg" [] [c3MenuA] none

/-- C3 second input: a `Setting` element whose value resolves by no known
lookup but whose `type` attribute has an unrecognized value. -/
def c3SettingOddType : XmlElem := .mk "Setting" [("name", "Foo"), ("type", "Weird")] [] none

def c3MenuB : XmlElem := .mk "Menu" [("name", "A")] [c3SettingOddType] none

def c3Root2 : XmlElem := .mk "BiosCfg" [] [c3MenuB] none

/-- Concrete two-section input for the C8 witness. -/
def c8ss : List PlainSection :=
  [⟨['A'], [(['x'], ['1'])]⟩, ⟨['B'], [(['y'], ['2'])]⟩]

/-- Concrete duplicate-header input for the C9 witness: two sections both
named `A`. -/
def c9u : List PlainSection := [⟨['A'], [(['x'], ['1'])]⟩]

def c9s : PlainSection := ⟨['A'], [(['y'], ['2'])]⟩

section CompareLemmas

theorem lookup_isSome_of_mem_fst {α : Type} {l : List (String × α)} {k : String}
    (h : k ∈ l.map Prod.fst) : (List.lookup k l).isSome := by
  induction l with
  | nil => simp at h
  | cons p rest ih =>
    obtain ⟨a, b⟩ := p
    by_cases hk : k = a
    · subst hk; simp [List.lookup]
    · have hmem : k ∈ rest.map Prod.fst := by
        simp only [List.map_cons, List.mem_cons] at h
        rcases h with h | h
        · exact absurd h hk
        · exact h
      have hbeq : (k == a) = false := beq_eq_false_iff_ne.mpr hk
      simpa [List.lookup, hbeq] using ih hmem

theorem compareLeafLoop_self (s : Settings) (path : String) (ks : List String)
    (hks : ∀ k ∈ ks, k ∈ s.map Prod.fst) :
    compareLeafLoop s s path ks = .ok ([], []) := by
  induction ks with
  | nil => rfl
  | cons k rest ih =>
    obtain ⟨v, hv⟩ :=
      Option.isSome_iff_exists.mp (lookup_isSome_of_mem_fst (hks k (by simp)))
    simp only [compareLeafLoop, hv, if_pos rfl]
    exact ih (fun k hk => hks k (by simp [hk]))

theorem compareLeafMaps_self (s : Settings) (path : String) :
    compareLeafMaps s s path = .ok ([], []) := by
  unfold compareLeafMaps
  rw [if_neg (by simp)]
  exact compareLeafLoop_self s path _ (fun k hk => hk)

theorem compareMenuLoop_self (T : SettingsTree) (ks : List String)
    (hks : ∀ k ∈ ks, k ∈ T.map Prod.fst) :
    compareMenuLoop T T ks = .ok ([], []) := by
  induction ks with
  | nil => rfl
  | cons k rest ih =>
    obtain ⟨s, hs⟩ :=
      Option.isSome_iff_exists.mp (lookup_isSome_of_mem_fst (hks k (by simp)))
    have hr := ih (fun k hk => hks k (by simp [hk]))
    simp [compareMenuLoop, hs, compareLeafMaps_self, hr]

theorem compareLeafLoop_mem (cb gt : Settings) (path : String) (ks : List String)
    (ds : List DiffEntry) (ws : List String)
    (h : compareLeafLoop cb gt path ks = .ok (ds, ws)) :
    ∀ e ∈ ds, e.path = path ∧ List.lookup e.key cb = some (some e.current) ∧
      List.lookup e.key gt = some (some e.template) ∧ e.current ≠ e.template := by
  induction ks generalizing ds ws with
  | nil =>
    simp only [compareLeafLoop, Except.ok.injEq, Prod.mk.injEq] at h
    obtain ⟨h1, _⟩ := h
    subst h1
    intro e he
    simp at he
  | cons k rest ih =>
    simp only [compareLeafLoop] at h
    cases hgt : List.lookup k gt with
    | none =>
      simp only [hgt] at h
      cases hrec : compareLeafLoop cb gt path rest with
      | error err =>
        simp only [hrec] at h
        exact Except.noConfusion h
      | ok p =>
        obtain ⟨ds', ws'⟩ := p
        simp only [hrec, Except.ok.injEq, Prod.mk.injEq] at h
        obtain ⟨h1, _⟩ := h
        subst h1
        exact ih ds' ws' hrec
    | some v2 =>
      simp only [hgt] at h
      cases hcb : List.lookup k cb with
      | none =>
        simp only [hcb] at h
        exact ih ds ws h
      | some v1 =>
        simp only [hcb] at h
        by_cases hv : v1 = v2
        · rw [if_pos hv] at h
          exact ih ds ws h
        · rw [if_neg hv] at h
          cases v1 with
          | none =>
            cases v2 with
            | none => exact absurd rfl hv
            | some s2 => simp at h
          | some s1 =>
            cases v2 with
            | none => simp at h
            | some s2 =>
              cases hrec : compareLeafLoop cb gt path rest with
              | error err =>
                simp only [hrec] at h
                exact Except.noConfusion h
              | ok p =>
                obtain ⟨ds', ws'⟩ := p
                simp only [hrec, Except.ok.injEq, Prod.mk.injEq] at h
                obtain ⟨h1, _⟩ := h
                subst h1
                intro e he
                rcases List.mem_cons.mp he with he | he
                · subst he
                  refine ⟨rfl, ?_, ?_, ?_⟩
                  · simpa using hcb
                  · simpa using hgt
                  · intro hc
                    exact hv (by simpa using hc)
                · exact ih ds' ws' hrec e he

theorem compareLeafMaps_mem (cb gt : Settings) (path : String)
    (ds : List DiffEntry) (ws : List String)
    (h : compareLeafMaps cb gt path = .ok (ds, ws)) :
    ∀ e ∈ ds, e.path = path ∧ List.lookup e.key cb = some (some e.current) ∧
      List.lookup e.key gt = some (some e.template) ∧ e.current ≠ e.template := by
  unfold compareLeafMaps at h
  split at h
  · exact Except.noConfusion h
  · exact compareLeafLoop_mem _ _ _ _ _ _ h

theorem compareMenuLoop_mem (cb gt : SettingsTree) (ks : List String)
    (ds : List DiffEntry) (ws : List String)
    (h : compareMenuLoop cb gt ks = .ok (ds, ws)) :
    ∀ e ∈ ds, ∃ scb sgt, List.lookup e.path cb = some scb ∧
      List.lookup e.path gt = some sgt ∧
      List.lookup e.key scb = some (some e.current) ∧
      List.lookup e.key sgt = some (some e.template) ∧
      e.current ≠ e.template := by
  induction ks generalizing ds ws with
  | nil =>
    simp only [compareMenuLoop, Except.ok.injEq, Prod.mk.injEq] at h
    obtain ⟨h1, _⟩ := h
    subst h1
    intro e he
    simp at he
  | cons k rest ih =>
    simp only [compareMenuLoop] at h
    cases hgt : List.lookup k gt with
    | none =>
      simp only [hgt] at h
      cases hrec : compareMenuLoop cb gt rest with
      | error err =>
        simp only [hrec] at h
        exact Except.noConfusion h
      | ok p =>
        obtain ⟨ds', ws'⟩ := p
        simp only [hrec, Except.ok.injEq, Prod.mk.injEq] at h
        obtain ⟨h1, _⟩ := h
        subst h1
        exact ih ds' ws' hrec
    | some s2 =>
      simp only [hgt] at h
      cases hcb : List.lookup k cb with
      | none =>
        simp only [hcb] at h
        exact ih ds ws h
      | some s1 =>
        simp only [hcb] at h
        cases hlm : compareLeafMaps s1 s2 k with
        | error err =>
          simp only [hlm] at h
          exact Except.noConfusion h
        | ok p1 =>
          obtain ⟨d1, w1⟩ := p1
          cases hrec : compareMenuLoop cb gt rest with
          | error err =>
            simp only [hlm, hrec] at h
            exact Except.noConfusion h
          | ok p =>
            obtain ⟨ds', ws'⟩ := p
            simp only [hlm, hrec, Except.ok.injEq, Prod.mk.injEq] at h
            obtain ⟨h1, _⟩ := h
            subst h1
            intro e he
            rcases List.mem_append.mp he with he1 | he2
            · obtain ⟨hp, h1, h2, hne⟩ := compareLeafMaps_mem s1 s2 k d1 w1 hlm e he1
              exact ⟨s1, s2, by rw [hp]; exact hcb, by rw [hp]; exact hgt, h1, h2, hne⟩
            · exact ih ds' ws' hrec e he2

end CompareLemmas

/-- C6: comparing any settings tree with itself returns an empty diff
sequence (and no warnings): the top-level length check passes trivially and
every leaf value equals itself, so no diff entry is ever produced. -/
theorem c6_compare_self_empty (T : SettingsTree) :
    compare_settings T T = .ok ([], []) := by
  unfold compare_settings
  rw [if_neg (by simp)]
  exact compareMenuLoop_self T _ (fun k hk => hk)

/-- C1 (amended): `compare_settings` fails with the structural-mismatch error
whenever the two trees differ in their number of top-level menu paths — but
this is not the *only* failure condition (see `c1_counterexample`): the same
length check also runs on the settings maps of each matched menu. -/
theorem c1_structural_mismatch (cb gt : SettingsTree)
    (h : cb.length ≠ gt.length) :
    compare_settings cb gt = .error .structuralMismatch := by
  unfold compare_settings
  rw [if_pos h]

/-- C1 witness: a current tree with 3 top-level menus against a template with
2 top-level menus fails with the structural-mismatch error. -/
theorem c1_structural_mismatch_witness :
    ([("A", [("x", some "1")]), ("B", [("y", some "2")]), ("C", [("z", some "3")])] :
        SettingsTree).length ≠
      ([("A", [("x", some "1")]), ("B", [("y", some "2")])] : SettingsTree).length ∧
    compare_settings
      [("A", [("x", some "1")]), ("B", [("y", some "2")]), ("C", [("z", some "3")])]
      [("A", [("x", some "1")]), ("B", [("y", some "2")])]
      = .error .structuralMismatch :=
  ⟨by decide, c1_structural_mismatch _ _ (by decide)⟩

/-- C1 counterexample: the claim's "only when" direction is false.  Both
trees here have exactly one top-level menu path, yet the comparison still
fails with the structural-mismatch error, because the `len` check at the top
of `compare_settings` is re-run on the settings maps of the matched menu
`"A"` (2 settings vs 1) when the function recurses. -/
theorem c1_counterexample :
    ([("A", [("x", some "1"), ("y", some "2")])] : SettingsTree).length =
      ([("A", [("x", some "1")])] : SettingsTree).length ∧
    compare_settings [("A", [("x", some "1"), ("y", some "2")])]
      [("A", [("x", some "1")])] = .error .structuralMismatch := by
  constructor
  · rfl
  · decide

/-- C2: whenever `compare_settings` returns a diff (the pair of trees is
accepted rather than rejected), every reported entry concerns a menu path
present in both trees and a setting key present in both matched settings
maps, with the two (string) values differing; hence a key present in only
one side of a matched menu never contributes a diff entry. -/
theorem c2_only_common_keys_compared (cb gt : SettingsTree)
    (ds : List DiffEntry) (ws : List String)
    (h : compare_settings cb gt = .ok (ds, ws)) :
    ∀ e ∈ ds, ∃ scb sgt, List.lookup e.path cb = some scb ∧
      List.lookup e.path gt = some sgt ∧
      List.lookup e.key scb = some (some e.current) ∧
      List.lookup e.key sgt = some (some e.template) ∧
      e.current ≠ e.template := by
  unfold compare_settings at h
  split at h
  · exact Except.noConfusion h
  · exact compareMenuLoop_mem _ _ _ _ _ h

/-- C2 witness: with menu `"M"` matched in both trees, key `"b"` (current
only) is not reported and key `"c"` (template only) is not reported; the
comparison succeeds, and the single entry it reports is for the common key
`"a"`, which the theorem certifies as present on both sides. -/
theorem c2_only_common_keys_compared_witness :
    ∃ scb sgt,
      List.lookup "M" ([("M", [("a", some "1"), ("b", some "2")])] : SettingsTree)
        = some scb ∧
      List.lookup "M" ([("M", [("a", some "9"), ("c", some "3")])] : SettingsTree)
        = some sgt ∧
      List.lookup "a" scb = some (some "1") ∧
      List.lookup "a" sgt = some (some "9") ∧
      ("1" : String) ≠ "9" :=
  c2_only_common_keys_compared
    [("M", [("a", some "1"), ("b", some "2")])]
    [("M", [("a", some "9"), ("c", some "3")])]
    [⟨"M", "a", "1", "9"⟩] ["b"] (by decide) ⟨"M", "a", "1", "9"⟩ (by simp)

/-- C3 (code bug): for a `Setting` whose value resolves by none of the known
lookups, the code does not record an unknown marker with a non-fatal warning.
With no `type` attribute at all, the `except KeyError` fallback runs
`settings[name] = None` but its warning message re-reads
`element.attrib['type']`, so the `KeyError` escapes uncaught and the whole
parse aborts (first conjunct).  With a `type` attribute of unrecognized
value, the `try` body completes without assigning, so the setting is
silently dropped — parsing continues, but the returned tree has no entry for
menu `A` at all (no `Foo`, no unknown marker, second conjunct). -/
theorem c3_unknown_setting_crash_and_drop :
    get_bios_data_xml c3Root = .error .keyError ∧
    get_bios_data_xml c3Root2 = .ok [] := by
  constructor
  · simp [get_bios_data_xml, c3Root, c3MenuA, c3SettingNoType, xmlTopLoop,
      parse_xml_tree, xmlLoop, settingStep, XmlElem.children, XmlElem.tag,
      XmlElem.attrib, List.lookup]
  · simp [get_bios_data_xml, c3Root2, c3MenuB, c3SettingOddType, xmlTopLoop,
      parse_xml_tree, xmlLoop, settingStep, XmlElem.children, XmlElem.tag,
      XmlElem.attrib, List.lookup]

/-- C4 (code bug): a headerless block with a `key=value` line crashes the
parse instead of being warned about and skipped: `menu_name` stays `''`,
which is never a key of `bios_data`, so `bios_data[''][...]` raises an
uncaught `KeyError` (first conjunct).  A headerless block with non-blank
content but no `key=value` line does behave as the claim says: non-fatal
warning, no menu entry, and the remaining blocks are returned (second
conjunct). -/
theorem c4_orphan_block_keyerror :
    get_bios_data (fun _ => none) .SUPERMICRO "Quiet Boot=Enabled"
        = .error .keyError ∧
    get_bios_data (fun _ => none) .SUPERMICRO "[A]\nx=1\n\ngarbage"
        = .ok ([("A", [("x", some "1")])], ["garbage"]) :=
  ⟨by decide, by decide⟩

theorem settingsLoop_not_xml (bd : SettingsTree) (menuName : String)
    (l : List (List Char × List Char)) :
    settingsLoop bd menuName l ≠ .error .xmlParseError := by
  induction l generalizing bd with
  | nil => simp [settingsLoop]
  | cons kv rest ih =>
    obtain ⟨k, v⟩ := kv
    cases h : List.lookup menuName bd with
    | none => simp [settingsLoop, h]
    | some m =>
      simp only [settingsLoop, h]
      exact ih _

theorem processBlocks_not_xml (bs : List (List Char)) (bd : SettingsTree)
    (ws : List String) :
    processBlocks bs bd ws ≠ .error .xmlParseError := by
  induction bs generalizing bd ws with
  | nil => simp [processBlocks]
  | cons menu rest ih =>
    simp only [processBlocks]
    split
    · rename_i e he
      intro hc
      cases hc
      exact settingsLoop_not_xml _ _ _ he
    · exact ih _ _

/-- C5 (amended): content that does not match the XML declaration pattern is
never rejected as unrecognized: `get_bios_data` has no dialect validation
and always proceeds down the plain-text path (first conjunct), whose only
possible failure is the orphan-block `KeyError`; in particular the XML-parse
abort — the only typed bad-format failure in the function — cannot occur
(second conjunct).  Unrecognized content thus yields warnings and a
(possibly empty) settings tree rather than a `FormatError`. -/
theorem c5_no_format_error (xmlFromString : String → Option XmlElem)
    (board : Baseboard) (content : String) (h : hasXmlDecl content = false) :
    get_bios_data xmlFromString board content = get_bios_data_plain board content ∧
    get_bios_data xmlFromString board content ≠ .error .xmlParseError := by
  have hd : get_bios_data xmlFromString board content
      = get_bios_data_plain board content := by
    simp [get_bios_data, h]
  exact ⟨hd, by rw [hd]; exact processBlocks_not_xml _ _ _⟩

/-- C5 counterexample: `"hello world"` matches neither the XML dialect (no
declaration) nor the plain dialect (no bracketed section, no setting line),
yet `parse` does not fail: it returns an empty settings tree together with
one non-fatal orphan-content warning. -/
theorem c5_counterexample :
    get_bios_data (fun _ => none) .SUPERMICRO "hello world"
      = .ok ([], ["hello world"]) := by
  decide

/-- C5 witness: the amended claim applied to the concrete non-matching
content `"hello world"`. -/
theorem c5_no_format_error_witness :
    get_bios_data (fun _ => none) .SUPERMICRO "hello world"
        = get_bios_data_plain .SUPERMICRO "hello world" ∧
    get_bios_data (fun _ => none) .SUPERMICRO "hello world"
        ≠ .error .xmlParseError :=
  c5_no_format_error (fun _ => none) .SUPERMICRO "hello world" (by decide)

section ListHelpers

theorem takeWhile_append_all {p : Char → Bool} (xs ys : List Char)
    (h : ∀ c ∈ xs, p c = true) :
    (xs ++ ys).takeWhile p = xs ++ ys.takeWhile p := by
  induction xs with
  | nil => simp
  | cons x t ih =>
    simp [List.takeWhile_cons, h x (by simp), ih (fun c hc => h c (by simp [hc]))]

theorem takeWhile_append_stop {p : Char → Bool} (xs : List Char) (y : Char)
    (ys : List Char) (h : ∀ c ∈ xs, p c = true) (hy : p y = false) :
    (xs ++ y :: ys).takeWhile p = xs := by
  rw [takeWhile_append_all xs (y :: ys) h]
  simp [List.takeWhile_cons, hy]

theorem dropWhile_append_stop {p : Char → Bool} (xs : List Char) (y : Char)
    (ys : List Char) (h : ∀ c ∈ xs, p c = true) (hy : p y = false) :
    (xs ++ y :: ys).dropWhile p = y :: ys := by
  induction xs with
  | nil => simp [List.dropWhile_cons, hy]
  | cons x t ih =>
    simp [List.dropWhile_cons, h x (by simp), ih (fun c hc => h c (by simp [hc]))]

theorem beforeLast_append (t : Char) (a b : List Char) (hb : t ∉ b) :
    beforeLast t (a ++ t :: b) = a := by
  have hall : ∀ c ∈ b.reverse, (decide (c ≠ t)) = true := by
    intro c hc
    simp only [List.mem_reverse] at hc
    simp only [decide_eq_true_eq]
    exact fun hct => hb (hct ▸ hc)
  have hy : (decide ((t : Char) ≠ t)) = false := by simp
  unfold beforeLast
  rw [List.reverse_append, List.reverse_cons, List.append_assoc,
    List.singleton_append, dropWhile_append_stop b.reverse t a.reverse hall hy]
  simp

theorem afterLast_append (t : Char) (a b : List Char) (hb : t ∉ b) :
    ((a ++ t :: b).reverse.takeWhile (fun c => c ≠ t)).reverse = b := by
  have hall : ∀ c ∈ b.reverse, (decide (c ≠ t)) = true := by
    intro c hc
    simp only [List.mem_reverse] at hc
    simp only [decide_eq_true_eq]
    exact fun hct => hb (hct ▸ hc)
  have hy : (decide ((t : Char) ≠ t)) = false := by simp
  rw [List.reverse_append, List.reverse_cons, List.append_assoc,
    List.singleton_append, takeWhile_append_stop b.reverse t a.reverse hall hy]
  simp

theorem lineSetting_split (a b : List Char) (hb : '=' ∉ b) :
    lineSetting (a ++ '=' :: b) = some (a, b) := by
  unfold lineSetting
  rw [if_pos (by simp), beforeLast_append '=' a b hb, afterLast_append '=' a b hb]

theorem lineSetting_no_eq (l : List Char) (h : '=' ∉ l) : lineSetting l = none := by
  unfold lineSetting
  rw [if_neg (by simp [h])]

theorem searchBracket_header (name tail : List Char)
    (h1 : '\n' ∉ name) (_h2 : ']' ∉ name) :
    searchBracket ('[' :: (name ++ ']' :: '\n' :: tail)) = some name := by
  have hall : ∀ c ∈ name, (decide (c ≠ '\n')) = true := by
    intro c hc
    simp only [decide_eq_true_eq]
    exact fun he => h1 (he ▸ hc)
  have hline : (name ++ ']' :: '\n' :: tail).takeWhile (fun d => decide (d ≠ '\n'))
      = name ++ [']'] := by
    rw [takeWhile_append_all name (']' :: '\n' :: tail) hall]
    simp [List.takeWhile_cons]
  have hbl : beforeLast ']' (name ++ [']']) = name := beforeLast_append ']' name [] (by simp)
  have hcontains : (name ++ [']']).contains ']' = true := by simp
  simp only [searchBracket, if_pos rfl, hline, hbl, hcontains, if_true]

theorem linesOf_append (l rest : List Char) (h : '\n' ∉ l) :
    linesOf (l ++ '\n' :: rest) = l :: linesOf rest := by
  induction l with
  | nil => simp [linesOf]
  | cons c t ih =>
    have hc : c ≠ '\n' := fun he => h (by simp [he])
    have ih2 := ih (fun hm => h (by simp [hm]))
    have ih3 : linesOf (t.append ('\n' :: rest)) = t :: linesOf rest := ih2
    show linesOf (c :: (t ++ '\n' :: rest)) = (c :: t) :: linesOf rest
    simp only [linesOf, if_neg hc, ih2, ih3]

theorem linesOf_no_nl (l : List Char) (h : '\n' ∉ l) : linesOf l = [l] := by
  induction l with
  | nil => rfl
  | cons c t ih =>
    have hc : c ≠ '\n' := fun he => h (by simp [he])
    simp only [linesOf, if_neg hc, ih (fun hm => h (by simp [hm]))]

theorem head?_ne_of_not_mem (l : List Char) (h : '\n' ∉ l) :
    l.head? ≠ some '\n' := by
  cases l with
  | nil => simp
  | cons c t =>
    simp only [List.head?_cons, ne_eq, Option.some.injEq]
    intro hc
    exact h (by simp [hc])

theorem noDoubleNl_of_no_nl (l : List Char) (h : '\n' ∉ l) :
    noDoubleNlB l = true := by
  induction l with
  | nil => rfl
  | cons c t ih =>
    cases t with
    | nil => rfl
    | cons d t2 =>
      have hc : c ≠ '\n' := fun he => h (by simp [he])
      simp only [noDoubleNlB, Bool.and_eq_true, Bool.not_eq_true']
      constructor
      · simp [hc]
      · exact ih (fun hm => h (by simp [hm]))

theorem noDoubleNl_cons (c : Char) (l : List Char) (hc : c ≠ '\n')
    (hl : noDoubleNlB l = true) : noDoubleNlB (c :: l) = true := by
  cases l with
  | nil => rfl
  | cons d t =>
    simp only [noDoubleNlB, Bool.and_eq_true, Bool.not_eq_true']
    exact ⟨by simp [hc], hl⟩

theorem noDoubleNl_cons_nl (l : List Char) (hl : noDoubleNlB l = true)
    (hh : l.head? ≠ some '\n') : noDoubleNlB ('\n' :: l) = true := by
  cases l with
  | nil => rfl
  | cons d t =>
    have hd : d ≠ '\n' := by
      intro he
      exact hh (by simp [he])
    simp only [noDoubleNlB, Bool.and_eq_true, Bool.not_eq_true']
    exact ⟨by simp [hd], hl⟩

theorem blocksOf_noDouble (cs : List Char) (h : noDoubleNlB cs = true) :
    blocksOf cs = [cs] := by
  induction cs with
  | nil => rfl
  | cons c rest ih =>
    cases rest with
    | nil => rfl
    | cons d rest2 =>
      simp only [noDoubleNlB, Bool.and_eq_true, Bool.not_eq_true'] at h
      obtain ⟨hcd, htail⟩ := h
      simp only [blocksOf, hcd, ih htail]
      simp

theorem collapseRuns_cons_nonspace (x : Char) (l : List Char)
    (hx : isPySpace x = false) :
    collapseRuns (x :: l) = x :: collapseRuns l := by
  cases l with
  | nil => rfl
  | cons y t => simp [collapseRuns, hx]

theorem collapseRuns_nonspace_append (a rest : List Char)
    (ha : ∀ c ∈ a, isPySpace c = false) :
    collapseRuns (a ++ rest) = a ++ collapseRuns rest := by
  induction a with
  | nil => simp
  | cons x t ih =>
    simp only [List.cons_append]
    rw [collapseRuns_cons_nonspace x _ (ha x (by simp)),
      ih (fun c hc => ha c (by simp [hc]))]

theorem collapseRuns_all_nonspace (a : List Char)
    (ha : ∀ c ∈ a, isPySpace c = false) : collapseRuns a = a :=
  calc collapseRuns a = collapseRuns (a ++ []) := by rw [List.append_nil]
    _ = a ++ collapseRuns [] := collapseRuns_nonspace_append a [] ha
    _ = a := by simp [collapseRuns]

theorem collapseSkip_spaces (k : Nat) (b : List Char)
    (hb : ∀ c ∈ b, isPySpace c = false) :
    collapseSkip (List.replicate k ' ' ++ b) = b := by
  induction k with
  | zero =>
    simp only [List.replicate, List.nil_append]
    cases b with
    | nil => rfl
    | cons c t =>
      simp only [collapseSkip, hb c (by simp), Bool.false_eq_true, if_false]
      rw [collapseRuns_all_nonspace t (fun c hc => hb c (by simp [hc]))]
  | succ n ih =>
    simp only [List.replicate_succ, List.cons_append, collapseSkip]
    rw [if_pos (by simp [isPySpace])]
    exact ih

theorem collapseRuns_run_deleted (a b : List Char) (n : Nat)
    (ha : ∀ c ∈ a, isPySpace c = false) (hb : ∀ c ∈ b, isPySpace c = false) :
    collapseRuns (a ++ List.replicate (n + 2) ' ' ++ b) = a ++ b := by
  rw [List.append_assoc, collapseRuns_nonspace_append a _ ha]
  congr 1
  have hrep : List.replicate (n + 2) ' ' ++ b
      = ' ' :: ' ' :: (List.replicate n ' ' ++ b) := by
    simp [List.replicate_succ]
  rw [hrep]
  simp only [collapseRuns]
  rw [if_pos (by simp [isPySpace]), if_pos (by simp [isPySpace])]
  exact collapseSkip_spaces n b hb

theorem collapseRuns_single_space (a b : List Char)
    (ha : ∀ c ∈ a, isPySpace c = false) (hb : ∀ c ∈ b, isPySpace c = false) :
    collapseRuns (a ++ ' ' :: b) = a ++ ' ' :: b := by
  rw [collapseRuns_nonspace_append a _ ha]
  congr 1
  cases b with
  | nil => rfl
  | cons c t =>
    simp only [collapseRuns]
    rw [if_pos (by simp [isPySpace]), if_neg (by simp [hb c (by simp)])]
    rw [collapseRuns_all_nonspace (c :: t) hb]

end ListHelpers

/-- C7: in the plain-text path the stored value of each `key=value` line has
every run of two-or-more whitespace characters deleted (collapsed to empty,
not to a single space, while an isolated single whitespace character is
kept), and in particular the spec's concrete example parses to exactly the
claimed tree, the trailing two-space padding of `Enabled` removed. -/
theorem c7_ws_collapse (a b : List Char) (n : Nat)
    (ha : ∀ c ∈ a, isPySpace c = false) (hb : ∀ c ∈ b, isPySpace c = false) :
    get_bios_data (fun _ => none) .OTHER
        "[Main]\nQuiet Boot=Enabled  \nPost Error Pause=Disabled\n"
      = .ok ([("Main", [("Quiet Boot", some "Enabled"),
          ("Post Error Pause", some "Disabled")])], []) ∧
    collapseRuns (a ++ List.replicate (n + 2) ' ' ++ b) = a ++ b ∧
    collapseRuns (a ++ ' ' :: b) = a ++ ' ' :: b :=
  ⟨by decide, collapseRuns_run_deleted a b n ha hb,
    collapseRuns_single_space a b ha hb⟩

/-- C7 witness: the concrete example plus a two-space run between `x` and
`y` deleted to `xy` (not `x y`), and a single space kept. -/
theorem c7_ws_collapse_witness :
    get_bios_data (fun _ => none) .OTHER
        "[Main]\nQuiet Boot=Enabled  \nPost Error Pause=Disabled\n"
      = .ok ([("Main", [("Quiet Boot", some "Enabled"),
          ("Post Error Pause", some "Disabled")])], []) ∧
    collapseRuns (['x'] ++ List.replicate (0 + 2) ' ' ++ ['y']) = ['x'] ++ ['y'] ∧
    collapseRuns (['x'] ++ ' ' :: ['y']) = ['x'] ++ ' ' :: ['y'] :=
  c7_ws_collapse ['x'] ['y'] 0 (by decide) (by decide)

theorem dictInsert_nil {α : Type} (k : String) (v : α) :
    dictInsert [] k v = [(k, v)] := by
  simp [dictInsert, List.lookup]

theorem dictInsert_single {α : Type} (k : String) (v v2 : α) :
    dictInsert [(k, v)] k v2 = [(k, v2)] := by
  simp [dictInsert, List.lookup]

/-- C10: a plain-text setting line with any number of `=` characters is
split at the *last* `=` of the line: the stored setting name is everything
before it, taken verbatim (no whitespace collapsing is ever applied to the
name), and the stored value is everything after it, with the whitespace-run
collapse applied to the value only. -/
theorem c10_split_at_last_eq (a b : List Char)
    (hb : '=' ∉ b) (ha2 : '\n' ∉ a) (hb2 : '\n' ∉ b)
    (hx : hasXmlDecl (String.mk ('[' :: 'M' :: ']' :: '\n' :: (a ++ '=' :: b)))
      = false) :
    get_bios_data (fun _ => none) .OTHER
        (String.mk ('[' :: 'M' :: ']' :: '\n' :: (a ++ '=' :: b)))
      = .ok ([("M", [(String.mk a, some (String.mk (collapseRuns b)))])], []) := by
  have hX : ('\n' : Char) ∉ (a ++ '=' :: b) := by
    intro hm
    rcases List.mem_append.mp hm with hm | hm
    · exact ha2 hm
    · rcases List.mem_cons.mp hm with hm | hm
      · simp at hm
      · exact hb2 hm
  have hnd : noDoubleNlB ('[' :: 'M' :: ']' :: '\n' :: (a ++ '=' :: b)) = true := by
    apply noDoubleNl_cons _ _ (by decide)
    apply noDoubleNl_cons _ _ (by decide)
    apply noDoubleNl_cons _ _ (by decide)
    exact noDoubleNl_cons_nl _ (noDoubleNl_of_no_nl _ hX) (head?_ne_of_not_mem _ hX)
  have hsb : searchBracket ('[' :: 'M' :: ']' :: '\n' :: (a ++ '=' :: b))
      = some ['M'] := by
    have h := searchBracket_header ['M'] (a ++ '=' :: b) (by decide) (by decide)
    simpa using h
  have hblk : settingsOfBlock ('[' :: 'M' :: ']' :: '\n' :: (a ++ '=' :: b))
      = [(a, b)] := by
    unfold settingsOfBlock
    have hlines : linesOf ('[' :: 'M' :: ']' :: '\n' :: (a ++ '=' :: b))
        = [['[', 'M', ']'], a ++ '=' :: b] := by
      have h := linesOf_append ['[', 'M', ']'] (a ++ '=' :: b) (by decide)
      simp only [List.cons_append, List.nil_append] at h
      rw [h, linesOf_no_nl _ hX]
    rw [hlines]
    simp only [List.filterMap_cons, lineSetting_no_eq ['[', 'M', ']'] (by decide),
      lineSetting_split a b hb, List.filterMap_nil]
  have hplain : get_bios_data (fun _ => none) .OTHER
        (String.mk ('[' :: 'M' :: ']' :: '\n' :: (a ++ '=' :: b)))
      = get_bios_data_plain .OTHER
        (String.mk ('[' :: 'M' :: ']' :: '\n' :: (a ++ '=' :: b))) := by
    simp [get_bios_data, hx]
  rw [hplain]
  show processBlocks (blocksOf ('[' :: 'M' :: ']' :: '\n' :: (a ++ '=' :: b))) [] []
      = _
  rw [blocksOf_noDouble _ hnd]
  have hM : String.mk ['M'] = "M" := rfl
  simp only [processBlocks, hsb, hblk, hM, Option.isNone_some, Bool.false_and,
    Bool.if_false_left, Option.map_some', Option.getD_some]
  rw [if_pos (by decide : ("M" : String) ≠ "")]
  rw [dictInsert_nil]
  simp only [settingsLoop, List.lookup, beq_self_eq_true, dictInsert_nil,
    dictInsert_single]
  simp

/-- C10 witness: the line `x=y  k=q  w` is split at its *last* `=`: the name
`x=y  k` is kept verbatim (its internal `=` and its double space untouched),
while the value `q  w` has its two-space run collapsed to give `qw`. -/
theorem c10_split_at_last_eq_witness :
    get_bios_data (fun _ => none) .OTHER
        (String.mk ('[' :: 'M' :: ']' :: '\n' ::
          (('x' :: '=' :: 'y' :: ' ' :: ' ' :: 'k' :: [])
            ++ '=' :: ('q' :: ' ' :: ' ' :: 'w' :: []))))
      = .ok ([("M", [(String.mk ('x' :: '=' :: 'y' :: ' ' :: ' ' :: 'k' :: []),
          some (String.mk (collapseRuns ('q' :: ' ' :: ' ' :: 'w' :: []))))])], []) ∧
    String.mk ('x' :: '=' :: 'y' :: ' ' :: ' ' :: 'k' :: []) = "x=y  k" ∧
    String.mk (collapseRuns ('q' :: ' ' :: ' ' :: 'w' :: [])) = "qw" :=
  ⟨c10_split_at_last_eq ('x' :: '=' :: 'y' :: ' ' :: ' ' :: 'k' :: [])
      ('q' :: ' ' :: ' ' :: 'w' :: []) (by decide) (by decide) (by decide) (by decide),
    by decide, by decide⟩

section DictLemmas

theorem string_mk_inj {a b : List Char} (h : String.mk a = String.mk b) : a = b := by
  have h2 := congrArg String.data h
  simpa using h2

theorem lookup_cons {α : Type} (k a : String) (b : α) (t : List (String × α)) :
    List.lookup k ((a, b) :: t) = if k = a then some b else List.lookup k t := by
  by_cases h : k = a
  · subst h
    simp [List.lookup]
  · simp [List.lookup, beq_eq_false_iff_ne.mpr h, h]

theorem lookup_map_replace {α : Type} (m : List (String × α)) (k : String) (v : α)
    (h : (List.lookup k m).isSome) :
    List.lookup k (m.map (fun p => if p.1 = k then (k, v) else p)) = some v := by
  induction m with
  | nil => simp [List.lookup] at h
  | cons p t ih =>
    obtain ⟨a, b⟩ := p
    rw [lookup_cons] at h
    by_cases hak : a = k
    · simp [List.map_cons, hak, lookup_cons]
    · have hka : ¬ k = a := fun he => hak he.symm
      rw [if_neg hka] at h
      simp [List.map_cons, hak, lookup_cons, hka, ih h]

theorem lookup_append_fresh {α : Type} (m : List (String × α)) (k : String) (v : α)
    (h : List.lookup k m = none) :
    List.lookup k (m ++ [(k, v)]) = some v := by
  induction m with
  | nil => simp [lookup_cons]
  | cons p t ih =>
    obtain ⟨a, b⟩ := p
    rw [lookup_cons] at h
    by_cases hka : k = a
    · rw [if_pos hka] at h
      exact absurd h (by simp)
    · rw [if_neg hka] at h
      simp [lookup_cons, hka, ih h]

theorem lookup_dictInsert_self {α : Type} (m : List (String × α)) (k : String) (v : α) :
    List.lookup k (dictInsert m k v) = some v := by
  unfold dictInsert
  by_cases h : (List.lookup k m).isSome
  · rw [if_pos h]
    exact lookup_map_replace m k v h
  · rw [if_neg h]
    exact lookup_append_fresh m k v (Option.not_isSome_iff_eq_none.mp h)

theorem lookup_map_replace_ne {α : Type} (m : List (String × α)) (k k2 : String) (v : α)
    (h : k2 ≠ k) :
    List.lookup k2 (m.map (fun p => if p.1 = k then (k, v) else p)) = List.lookup k2 m := by
  induction m with
  | nil => rfl
  | cons p t ih =>
    obtain ⟨a, b⟩ := p
    by_cases hak : a = k
    · simp [List.map_cons, hak, lookup_cons, h, ih]
    · by_cases hk2 : k2 = a
      · simp [List.map_cons, hak, lookup_cons, hk2]
      · simp [List.map_cons, hak, lookup_cons, hk2, ih]

theorem lookup_append_single_ne {α : Type} (m : List (String × α)) (k k2 : String) (v : α)
    (h : k2 ≠ k) :
    List.lookup k2 (m ++ [(k, v)]) = List.lookup k2 m := by
  induction m with
  | nil => simp [lookup_cons, h]
  | cons p t ih =>
    obtain ⟨a, b⟩ := p
    by_cases hk2 : k2 = a
    · simp [lookup_cons, hk2]
    · simp [lookup_cons, hk2, ih]

theorem lookup_dictInsert_ne {α : Type} (m : List (String × α)) (k k2 : String) (v : α)
    (h : k2 ≠ k) :
    List.lookup k2 (dictInsert m k v) = List.lookup k2 m := by
  unfold dictInsert
  by_cases hs : (List.lookup k m).isSome
  · rw [if_pos hs]
    exact lookup_map_replace_ne m k k2 v h
  · rw [if_neg hs]
    exact lookup_append_single_ne m k k2 v h

theorem map_replace_id {α : Type} (m : List (String × α)) (k : String) (w : α)
    (h : List.lookup k m = none) :
    (m.map fun p => if p.1 = k then (k, w) else p) = m := by
  induction m with
  | nil => rfl
  | cons p t ih =>
    obtain ⟨a, b⟩ := p
    rw [lookup_cons] at h
    by_cases hka : k = a
    · rw [if_pos hka] at h
      exact absurd h (by simp)
    · rw [if_neg hka] at h
      have hak : ¬ a = k := fun he => hka he.symm
      simp [List.map_cons, hak, ih h]

theorem dictInsert_dictInsert {α : Type} (m : List (String × α)) (k : String) (v w : α) :
    dictInsert (dictInsert m k v) k w = dictInsert m k w := by
  unfold dictInsert
  by_cases h : (List.lookup k m).isSome
  · rw [if_pos h]
    have h2 : (List.lookup k (m.map fun p => if p.1 = k then (k, v) else p)).isSome := by
      rw [lookup_map_replace m k v h]
      rfl
    rw [if_pos h2, if_pos h, List.map_map]
    congr 1
    funext p
    by_cases hp : p.1 = k
    · simp [hp]
    · simp [hp]
  · rw [if_neg h]
    have hnone := Option.not_isSome_iff_eq_none.mp h
    have h2 : (List.lookup k (m ++ [(k, v)])).isSome := by
      rw [lookup_append_fresh m k v hnone]
      rfl
    rw [if_pos h2, if_neg h, List.map_append, map_replace_id m k w hnone]
    simp

theorem dictInsert_append_fresh {α : Type} (m : List (String × α)) (k : String) (v : α)
    (h : List.lookup k m = none) :
    dictInsert m k v = m ++ [(k, v)] := by
  unfold dictInsert
  rw [if_neg (by simp [h])]

theorem lookup_none_of_not_mem_fst {α : Type} (m : List (String × α)) (k : String)
    (h : k ∉ m.map Prod.fst) :
    List.lookup k m = none := by
  induction m with
  | nil => rfl
  | cons p t ih =>
    obtain ⟨a, b⟩ := p
    have hka : ¬ k = a := fun he => h (by simp [he])
    simp [lookup_cons, hka, ih (fun hm => h (by simp [hm]))]

end DictLemmas

theorem settingsLoop_from_insert (bd : SettingsTree) (k : String) (m0 : Settings)
    (kvs : List (List Char × List Char)) :
    settingsLoop (dictInsert bd k m0) k kvs
      = .ok (dictInsert bd k (kvs.foldl innerStep m0)) := by
  induction kvs generalizing m0 with
  | nil => rfl
  | cons kv rest ih =>
    obtain ⟨key, val⟩ := kv
    simp only [settingsLoop, lookup_dictInsert_self, dictInsert_dictInsert]
    rw [ih (dictInsert m0 (String.mk key) (some (String.mk (collapseRuns val))))]
    rfl

section RenderLemmas

theorem getLast?_ne_of_not_mem (l : List Char) (h : '\n' ∉ l) :
    l.getLast? ≠ some '\n' := by
  rw [List.getLast?_eq_head?_reverse]
  exact head?_ne_of_not_mem l.reverse (by simpa using h)

theorem joinWith_nl_ne_nil (ls : List (List Char)) (h : ∀ l ∈ ls, l ≠ [])
    (hne : ls ≠ []) : joinWith ['\n'] ls ≠ [] := by
  cases ls with
  | nil => exact absurd rfl hne
  | cons l rest =>
    cases rest with
    | nil => exact h l (by simp)
    | cons l2 rest2 =>
      simp only [joinWith]
      intro hc
      exact h l (by simp) (List.append_eq_nil.mp (List.append_eq_nil.mp hc).1).1

theorem noDoubleNl_append_nl (l J : List Char) (hl : '\n' ∉ l)
    (hJ : noDoubleNlB J = true) (hh : J.head? ≠ some '\n') :
    noDoubleNlB (l ++ '\n' :: J) = true := by
  induction l with
  | nil => exact noDoubleNl_cons_nl J hJ hh
  | cons c t ih =>
    have hc : c ≠ '\n' := fun he => hl (by simp [he])
    exact noDoubleNl_cons c _ hc (ih (fun hm => hl (by simp [hm])))

theorem head?_append_of_ne_nil (l J : List Char) (h : l ≠ []) :
    (l ++ J).head? = l.head? := by
  cases l with
  | nil => exact absurd rfl h
  | cons c t => rfl

theorem joinWith_nl_props (ls : List (List Char))
    (h : ∀ l ∈ ls, l ≠ [] ∧ '\n' ∉ l) (hne : ls ≠ []) :
    noDoubleNlB (joinWith ['\n'] ls) = true ∧
    (joinWith ['\n'] ls).head? ≠ some '\n' ∧
    (joinWith ['\n'] ls).getLast? ≠ some '\n' := by
  induction ls with
  | nil => exact absurd rfl hne
  | cons l rest ih =>
    cases rest with
    | nil =>
      refine ⟨noDoubleNl_of_no_nl l (h l (by simp)).2, ?_, ?_⟩
      · exact head?_ne_of_not_mem l (h l (by simp)).2
      · exact getLast?_ne_of_not_mem l (h l (by simp)).2
    | cons l2 rest2 =>
      obtain ⟨hJnd, hJh, hJl⟩ := ih (fun t ht => h t (by simp [ht])) (by simp)
      have hl := h l (by simp)
      have hshape : joinWith ['\n'] (l :: l2 :: rest2)
          = l ++ '\n' :: joinWith ['\n'] (l2 :: rest2) := by
        simp [joinWith]
      rw [hshape]
      have hJne : joinWith ['\n'] (l2 :: rest2) ≠ [] :=
        joinWith_nl_ne_nil _ (fun t ht => (h t (by simp [ht])).1) (by simp)
      refine ⟨noDoubleNl_append_nl l _ hl.2 hJnd hJh, ?_, ?_⟩
      · rw [head?_append_of_ne_nil l _ hl.1]
        exact head?_ne_of_not_mem l hl.2
      · rw [List.getLast?_append_of_ne_nil l (by simp)]
        rw [show ('\n' :: joinWith ['\n'] (l2 :: rest2))
            = ['\n'] ++ joinWith ['\n'] (l2 :: rest2) from rfl]
        rw [List.getLast?_append_of_ne_nil _ hJne]
        exact hJl

end RenderLemmas

theorem mem_joinWith (sep : List Char) (ls : List (List Char)) (c : Char)
    (h : c ∈ joinWith sep ls) : c ∈ sep ∨ ∃ l ∈ ls, c ∈ l := by
  induction ls with
  | nil => simp [joinWith] at h
  | cons l rest ih =>
    cases rest with
    | nil =>
      right
      exact ⟨l, by simp, h⟩
    | cons l2 rest2 =>
      simp only [joinWith, List.append_assoc, List.mem_append] at h
      rcases h with h | h | h
      · exact Or.inr ⟨l, by simp, h⟩
      · exact Or.inl h
      · rcases ih h with h2 | ⟨t, ht, hc⟩
        · exact Or.inl h2
        · exact Or.inr ⟨t, by simp [ht], hc⟩

theorem linesOf_joinWith (ls : List (List Char)) (h : ∀ l ∈ ls, '\n' ∉ l)
    (hne : ls ≠ []) : linesOf (joinWith ['\n'] ls) = ls := by
  induction ls with
  | nil => exact absurd rfl hne
  | cons l rest ih =>
    cases rest with
    | nil => exact linesOf_no_nl l (h l (by simp))
    | cons l2 rest2 =>
      have hshape : joinWith ['\n'] (l :: l2 :: rest2)
          = l ++ '\n' :: joinWith ['\n'] (l2 :: rest2) := by
        simp [joinWith]
      rw [hshape, linesOf_append l _ (h l (by simp)),
        ih (fun t ht => h t (by simp [ht])) (by simp)]

theorem filterMap_lineSetting_render (kvs : List (List Char × List Char))
    (h : ∀ kv ∈ kvs, '=' ∉ kv.2) :
    ((kvs.map (fun kv => kv.1 ++ '=' :: kv.2)).filterMap lineSetting) = kvs := by
  induction kvs with
  | nil => rfl
  | cons kv rest ih =>
    simp only [List.map_cons, List.filterMap_cons,
      lineSetting_split kv.1 kv.2 (h kv (by simp))]
    rw [ih (fun t ht => h t (by simp [ht]))]

theorem stripHash_id (cs : List Char) (h : '#' ∉ cs) : stripHash cs = cs := by
  induction cs with
  | nil => rfl
  | cons c t ih =>
    have hc : ¬ c = '#' := fun he => h (by simp [he])
    simp [stripHash, hc, ih (fun hm => h (by simp [hm]))]

theorem stripSemi_id (cs : List Char) (h : ';' ∉ cs) : stripSemi cs = cs := by
  induction cs with
  | nil => rfl
  | cons c t ih =>
    have hc : ¬ c = ';' := fun he => h (by simp [he])
    simp [stripSemi, hc, ih (fun hm => h (by simp [hm]))]

theorem stripSlash_cons (c : Char) (t : List Char) (hc : c ≠ '/') :
    stripSlash (c :: t) = c :: stripSlash t := by
  rw [stripSlash.eq_def]
  split
  · rename_i heq
    exact absurd heq (by simp)
  · rename_i rest heq
    injection heq with h1 h2
    exact absurd h1 hc
  · rename_i c2 rest heq
    injection heq with h1 h2
    rw [h1, h2]

theorem stripSlash_id (cs : List Char) (h : '/' ∉ cs) : stripSlash cs = cs := by
  induction cs with
  | nil => rfl
  | cons c t ih =>
    have hc : c ≠ '/' := fun he => h (by simp [he])
    rw [stripSlash_cons c t hc, ih (fun hm => h (by simp [hm]))]

theorem stripComments_id (board : Baseboard) (cs : List Char)
    (h1 : '#' ∉ cs) (h2 : '/' ∉ cs) (h3 : ';' ∉ cs) :
    stripComments board cs = cs := by
  cases board with
  | SUPERMICRO =>
    unfold stripComments
    rw [stripHash_id cs h1, stripSlash_id cs h2]
  | INTEL => exact stripSemi_id cs h3
  | OTHER => rfl

theorem blocksOf_append_sep (b rest : List Char) (hb : noDoubleNlB b = true)
    (hlast : b.getLast? ≠ some '\n') :
    blocksOf (b ++ '\n' :: '\n' :: rest) = b :: blocksOf rest := by
  induction b with
  | nil => simp [blocksOf]
  | cons c t ihb =>
    cases t with
    | nil =>
      have hc : ¬ c = '\n' := fun he => hlast (by simp [he])
      simp only [List.cons_append, List.nil_append, blocksOf]
      rw [if_neg (by simp [hc])]
      simp [blocksOf]
    | cons d t2 =>
      simp only [noDoubleNlB, Bool.and_eq_true, Bool.not_eq_true'] at hb
      obtain ⟨hcd, h2⟩ := hb
      have hlast2 : (d :: t2).getLast? ≠ some '\n' := by
        rw [← List.getLast?_cons_cons]
        exact hlast
      have ih2 := ihb h2 hlast2
      have ih3 : blocksOf (d :: t2.append ('\n' :: '\n' :: rest))
          = (d :: t2) :: blocksOf rest := ih2
      simp only [List.cons_append, blocksOf]
      rw [if_neg (by simpa using hcd)]
      rw [ih3]

theorem blocksOf_joinWith (bs : List (List Char))
    (h : ∀ b ∈ bs, noDoubleNlB b = true ∧ b.getLast? ≠ some '\n') (hne : bs ≠ []) :
    blocksOf (joinWith ['\n', '\n'] bs) = bs := by
  induction bs with
  | nil => exact absurd rfl hne
  | cons b rest ih =>
    cases rest with
    | nil => exact blocksOf_noDouble b (h b (by simp)).1
    | cons b2 rest2 =>
      have hshape : joinWith ['\n', '\n'] (b :: b2 :: rest2)
          = b ++ '\n' :: '\n' :: joinWith ['\n', '\n'] (b2 :: rest2) := by
        simp [joinWith]
      rw [hshape, blocksOf_append_sep b _ (h b (by simp)).1 (h b (by simp)).2,
        ih (fun t ht => h t (by simp [ht])) (by simp)]

theorem renderSection_shape (s : PlainSection) :
    renderSection s = ('[' :: s.name ++ [']'])
      ++ '\n' :: joinWith ['\n'] (s.settings.map (fun kv => kv.1 ++ '=' :: kv.2)) := by
  unfold renderSection
  simp [List.append_assoc]

theorem processBlocks_section (s : PlainSection) (restBlocks : List (List Char))
    (bd : SettingsTree) (ws : List String) (hwf : wfSection s) :
    processBlocks (renderSection s :: restBlocks) bd ws
      = processBlocks restBlocks (sectionStep bd s) ws := by
  obtain ⟨hname, hnchars, hsne, hkv⟩ := hwf
  have h1 : '\n' ∉ s.name := fun hm => (hnchars _ hm).1 rfl
  have h2 : ']' ∉ s.name := fun hm => (hnchars _ hm).2.2.1 rfl
  have hsb : searchBracket (renderSection s) = some s.name := by
    unfold renderSection
    exact searchBracket_header s.name _ h1 h2
  have hmne : String.mk s.name ≠ "" := fun he => hname (string_mk_inj he)
  have hJne : (s.settings.map (fun kv => kv.1 ++ '=' :: kv.2)) ≠ [] := by
    simp [hsne]
  have hlinesok : ∀ l ∈ s.settings.map (fun kv => kv.1 ++ '=' :: kv.2), '\n' ∉ l := by
    intro l hl
    simp only [List.mem_map] at hl
    obtain ⟨kv, hkv2, rfl⟩ := hl
    intro hm
    rcases List.mem_append.mp hm with hm | hm
    · exact ((hkv kv hkv2).1 '\n' hm).1 rfl
    · rcases List.mem_cons.mp hm with hm | hm
      · simp at hm
      · exact ((hkv kv hkv2).2 '\n' hm).1 rfl
  have hhdr : '\n' ∉ ('[' :: s.name ++ [']']) := by
    intro hm
    simp only [List.cons_append, List.mem_cons, List.mem_append,
      List.mem_singleton] at hm
    rcases hm with hm | hm | hm
    · simp at hm
    · exact h1 hm
    · simp at hm
  have hhdreq : '=' ∉ ('[' :: s.name ++ [']']) := by
    intro hm
    simp only [List.cons_append, List.mem_cons, List.mem_append,
      List.mem_singleton] at hm
    rcases hm with hm | hm | hm
    · simp at hm
    · exact (hnchars _ hm).2.2.2.1 rfl
    · simp at hm
  have hblk : settingsOfBlock (renderSection s) = s.settings := by
    unfold settingsOfBlock
    rw [renderSection_shape s, linesOf_append _ _ hhdr,
      linesOf_joinWith _ hlinesok hJne]
    simp only [List.filterMap_cons, lineSetting_no_eq _ hhdreq]
    exact filterMap_lineSetting_render s.settings
      (fun kv hk => fun hm => ((hkv kv hk).2 '=' hm).2.1 rfl)
  simp only [processBlocks, hsb, Option.isNone_some, Bool.false_and,
    Bool.if_false_left, Option.map_some', Option.getD_some, hblk]
  rw [if_pos hmne]
  rw [settingsLoop_from_insert bd (String.mk s.name) [] s.settings]
  rfl

theorem processBlocks_map_render (ss : List PlainSection) (bd : SettingsTree)
    (ws : List String) (h : ∀ s ∈ ss, wfSection s) :
    processBlocks (ss.map renderSection) bd ws = .ok (ss.foldl sectionStep bd, ws) := by
  induction ss generalizing bd with
  | nil => rfl
  | cons s rest ih =>
    rw [List.map_cons, processBlocks_section s _ bd ws (h s (by simp)),
      ih _ (fun t ht => h t (by simp [ht]))]
    rfl

theorem not_mem_renderSections (ss : List PlainSection) (c : Char)
    (hc : c ≠ '[' ∧ c ≠ ']' ∧ c ≠ '\n' ∧ c ≠ '=')
    (hex : ∀ s ∈ ss, c ∉ s.name ∧ ∀ kv ∈ s.settings, c ∉ kv.1 ∧ c ∉ kv.2) :
    c ∉ renderSections ss := by
  intro hm
  unfold renderSections at hm
  rcases mem_joinWith _ _ _ hm with hsep | hrest
  · simp only [List.mem_cons, List.mem_singleton, List.not_mem_nil, or_false] at hsep
    rcases hsep with hsep | hsep
    · exact hc.2.2.1 hsep
    · exact hc.2.2.1 hsep
  · obtain ⟨b, hb, hcb⟩ := hrest
    simp only [List.mem_map] at hb
    obtain ⟨s, hs, rfl⟩ := hb
    unfold renderSection at hcb
    rcases List.mem_cons.mp hcb with he | hcb2
    · exact hc.1 he
    rcases List.mem_append.mp hcb2 with hm2 | hm2
    · exact (hex s hs).1 hm2
    rcases List.mem_cons.mp hm2 with he | hm3
    · exact hc.2.1 he
    rcases List.mem_cons.mp hm3 with he | hm4
    · exact hc.2.2.1 he
    rcases mem_joinWith _ _ _ hm4 with hsep2 | hrest2
    · simp only [List.mem_singleton] at hsep2
      exact hc.2.2.1 hsep2
    · obtain ⟨l, hl, hcl⟩ := hrest2
      simp only [List.mem_map] at hl
      obtain ⟨kv, hkv2, rfl⟩ := hl
      rcases List.mem_append.mp hcl with hm5 | hm5
      · exact ((hex s hs).2 kv hkv2).1 hm5
      rcases List.mem_cons.mp hm5 with he | hm6
      · exact hc.2.2.2 he
      · exact ((hex s hs).2 kv hkv2).2 hm6

theorem renderSection_block_props (s : PlainSection) (hwf : wfSection s) :
    noDoubleNlB (renderSection s) = true ∧
    (renderSection s).getLast? ≠ some '\n' := by
  obtain ⟨hname, hnchars, hsne, hkv⟩ := hwf
  have hlp : ∀ l ∈ s.settings.map (fun kv => kv.1 ++ '=' :: kv.2),
      l ≠ [] ∧ '\n' ∉ l := by
    intro l hl
    simp only [List.mem_map] at hl
    obtain ⟨kv, hk, rfl⟩ := hl
    refine ⟨by simp, ?_⟩
    intro hm
    rcases List.mem_append.mp hm with hm | hm
    · exact ((hkv kv hk).1 '\n' hm).1 rfl
    · rcases List.mem_cons.mp hm with hm | hm
      · simp at hm
      · exact ((hkv kv hk).2 '\n' hm).1 rfl
  obtain ⟨hJnd, hJh, hJl⟩ := joinWith_nl_props _ hlp (by simp [hsne])
  have hJne : joinWith ['\n'] (s.settings.map (fun kv => kv.1 ++ '=' :: kv.2)) ≠ [] :=
    joinWith_nl_ne_nil _ (fun l hl => (hlp l hl).1) (by simp [hsne])
  have hhdr : '\n' ∉ ('[' :: s.name ++ [']']) := by
    intro hm
    simp only [List.cons_append, List.mem_cons, List.mem_append,
      List.mem_singleton] at hm
    rcases hm with hm | hm | hm
    · simp at hm
    · exact (hnchars _ hm).1 rfl
    · simp at hm
  constructor
  · rw [renderSection_shape s]
    exact noDoubleNl_append_nl _ _ hhdr hJnd hJh
  · rw [renderSection_shape s]
    rw [List.getLast?_append_of_ne_nil _ (by simp)]
    rw [show ('\n' :: joinWith ['\n'] (s.settings.map (fun kv => kv.1 ++ '=' :: kv.2)))
        = ['\n'] ++ joinWith ['\n'] (s.settings.map (fun kv => kv.1 ++ '=' :: kv.2))
      from rfl]
    rw [List.getLast?_append_of_ne_nil _ hJne]
    exact hJl

theorem get_bios_data_render (f : String → Option XmlElem) (board : Baseboard)
    (ss : List PlainSection) (hwf : ∀ s ∈ ss, wfSection s) (hne : ss ≠ [])
    (hx : hasXmlDecl (String.mk (renderSections ss)) = false) :
    get_bios_data f board (String.mk (renderSections ss)) = .ok (treeOf ss, []) := by
  have hnc1 : '#' ∉ renderSections ss := by
    apply not_mem_renderSections ss '#' (by decide)
    intro s hs
    obtain ⟨_, hn, _, hkvs⟩ := hwf s hs
    exact ⟨fun hm => (hn _ hm).2.2.2.2.1 rfl,
      fun kv hk => ⟨fun hm => ((hkvs kv hk).1 _ hm).2.1 rfl,
        fun hm => ((hkvs kv hk).2 _ hm).2.2.1 rfl⟩⟩
  have hnc2 : '/' ∉ renderSections ss := by
    apply not_mem_renderSections ss '/' (by decide)
    intro s hs
    obtain ⟨_, hn, _, hkvs⟩ := hwf s hs
    exact ⟨fun hm => (hn _ hm).2.2.2.2.2.1 rfl,
      fun kv hk => ⟨fun hm => ((hkvs kv hk).1 _ hm).2.2.1 rfl,
        fun hm => ((hkvs kv hk).2 _ hm).2.2.2.1 rfl⟩⟩
  have hnc3 : ';' ∉ renderSections ss := by
    apply not_mem_renderSections ss ';' (by decide)
    intro s hs
    obtain ⟨_, hn, _, hkvs⟩ := hwf s hs
    exact ⟨fun hm => (hn _ hm).2.2.2.2.2.2 rfl,
      fun kv hk => ⟨fun hm => ((hkvs kv hk).1 _ hm).2.2.2 rfl,
        fun hm => ((hkvs kv hk).2 _ hm).2.2.2.2 rfl⟩⟩
  have hbprops : ∀ b ∈ ss.map renderSection,
      noDoubleNlB b = true ∧ b.getLast? ≠ some '\n' := by
    intro b hb
    simp only [List.mem_map] at hb
    obtain ⟨s, hs, rfl⟩ := hb
    exact renderSection_block_props s (hwf s hs)
  have hplain : get_bios_data f board (String.mk (renderSections ss))
      = get_bios_data_plain board (String.mk (renderSections ss)) := by
    simp [get_bios_data, hx]
  rw [hplain]
  show processBlocks (blocksOf (stripComments board (renderSections ss))) [] [] = _
  rw [stripComments_id board _ hnc1 hnc2 hnc3]
  show processBlocks (blocksOf (joinWith ['\n', '\n'] (ss.map renderSection))) [] [] = _
  rw [blocksOf_joinWith _ hbprops (by simp [hne])]
  exact processBlocks_map_render ss [] [] hwf

theorem foldl_sectionStep_length (ss : List PlainSection) (bd : SettingsTree)
    (hfresh : ∀ s ∈ ss, (String.mk s.name) ∉ bd.map Prod.fst)
    (hnd : (ss.map (fun s => s.name)).Nodup) :
    (ss.foldl sectionStep bd).length = bd.length + ss.length := by
  induction ss generalizing bd with
  | nil => simp
  | cons s rest ih =>
    have hlk : List.lookup (String.mk s.name) bd = none :=
      lookup_none_of_not_mem_fst bd _ (hfresh s (by simp))
    have hstep : sectionStep bd s = bd ++ [(String.mk s.name, sectionSettings s)] :=
      dictInsert_append_fresh bd _ _ hlk
    have hnd2 : (rest.map (fun s => s.name)).Nodup :=
      (List.nodup_cons.mp (by simpa using hnd)).2
    have hns : s.name ∉ rest.map (fun t => t.name) :=
      (List.nodup_cons.mp (by simpa using hnd)).1
    have hfresh2 : ∀ t ∈ rest, (String.mk t.name) ∉ (sectionStep bd s).map Prod.fst := by
      intro t ht
      rw [hstep]
      simp only [List.map_append, List.mem_append]
      rintro (hm | hm)
      · exact hfresh t (by simp [ht]) hm
      · simp only [List.map_cons, List.map_nil, List.mem_singleton] at hm
        have heq := string_mk_inj hm
        exact hns (heq ▸ List.mem_map_of_mem (fun t => t.name) ht)
    rw [List.foldl_cons, ih (sectionStep bd s) hfresh2 hnd2, hstep]
    simp only [List.length_append, List.length_cons, List.length_nil, List.length_cons]
    omega

/-- C8: for every valid plain-text input — the rendering of any non-empty
list of well-formed bracketed sections with pairwise-distinct menu names,
each section non-empty — `parse` succeeds and returns a settings tree with
exactly N top-level keys, where N is the number of sections.  Holds for
every board kind (the well-formedness excludes comment characters) and any
XML collaborator, since the content carries no XML declaration. -/
theorem c8_section_count (f : String → Option XmlElem) (board : Baseboard)
    (ss : List PlainSection) (hwf : ∀ s ∈ ss, wfSection s) (hne : ss ≠ [])
    (hnd : (ss.map (fun s => s.name)).Nodup)
    (hx : hasXmlDecl (String.mk (renderSections ss)) = false) :
    get_bios_data f board (String.mk (renderSections ss)) = .ok (treeOf ss, []) ∧
    (treeOf ss).length = ss.length := by
  refine ⟨get_bios_data_render f board ss hwf hne hx, ?_⟩
  have h := foldl_sectionStep_length ss [] (by simp) hnd
  simpa [treeOf] using h

/-- C8 witness: a two-section input parses to a tree with exactly 2
top-level keys. -/
theorem c8_section_count_witness :
    (get_bios_data (fun _ => none) .SUPERMICRO (String.mk (renderSections c8ss))
        = .ok (treeOf c8ss, []) ∧
      (treeOf c8ss).length = c8ss.length) ∧
    String.mk (renderSections c8ss) = "[A]\nx=1\n\n[B]\ny=2" ∧
    (treeOf c8ss).length = 2 :=
  ⟨c8_section_count (fun _ => none) .SUPERMICRO c8ss (by decide) (by decide)
      (by decide) (by decide),
    by decide, by decide⟩

theorem lookup_foldl_sectionStep (v : List PlainSection) (bd : SettingsTree)
    (k : String) (h : ∀ t ∈ v, String.mk t.name ≠ k) :
    List.lookup k (v.foldl sectionStep bd) = List.lookup k bd := by
  induction v generalizing bd with
  | nil => rfl
  | cons t rest ih =>
    rw [List.foldl_cons, ih _ (fun t2 ht2 => h t2 (by simp [ht2]))]
    exact lookup_dictInsert_ne bd (String.mk t.name) k (sectionSettings t)
      (fun he => h t (by simp) he.symm)

/-- C9: when a plain-text input contains two or more blocks with the same
bracketed header name, the parser's `bios_data[menu_name] = {}` reset on
each header occurrence discards the settings of every earlier same-named
block: the returned tree's entry for that menu is exactly the settings map
built from the *last* such block alone. -/
theorem c9_duplicate_header_last_wins (f : String → Option XmlElem)
    (board : Baseboard) (u v : List PlainSection) (s : PlainSection)
    (hwf : ∀ t ∈ u ++ s :: v, wfSection t)
    (_hdup : ∃ t ∈ u, t.name = s.name)
    (hlast : ∀ t ∈ v, t.name ≠ s.name)
    (hx : hasXmlDecl (String.mk (renderSections (u ++ s :: v))) = false) :
    get_bios_data f board (String.mk (renderSections (u ++ s :: v)))
      = .ok (treeOf (u ++ s :: v), []) ∧
    List.lookup (String.mk s.name) (treeOf (u ++ s :: v))
      = some (sectionSettings s) := by
  refine ⟨get_bios_data_render f board _ hwf (by simp) hx, ?_⟩
  unfold treeOf
  rw [List.foldl_append, List.foldl_cons]
  rw [lookup_foldl_sectionStep v _ _
    (fun t ht => fun he => hlast t ht (string_mk_inj he))]
  exact lookup_dictInsert_self _ _ _

/-- C9 witness: `[A]\nx=1` followed by a second `[A]\ny=2` block parses to a
tree whose `A` entry holds only `y=2`; `x` is gone. -/
theorem c9_duplicate_header_last_wins_witness :
    (get_bios_data (fun _ => none) .SUPERMICRO
        (String.mk (renderSections (c9u ++ c9s :: [])))
        = .ok (treeOf (c9u ++ c9s :: []), []) ∧
      List.lookup (String.mk c9s.name) (treeOf (c9u ++ c9s :: []))
        = some (sectionSettings c9s)) ∧
    String.mk (renderSections (c9u ++ c9s :: [])) = "[A]\nx=1\n\n[A]\ny=2" ∧
    sectionSettings c9s = [("y", some "2")] ∧
    treeOf (c9u ++ c9s :: []) = [("A", [("y", some "2")])] :=
  ⟨c9_duplicate_header_last_wins (fun _ => none) .SUPERMICRO c9u [] c9s
      (by decide) (by decide) (by decide) (by decide),
    by decide, by decide, by decide⟩
